import Mathlib

/- Verification of the geoheatmap density-raster pipeline
   (src/services/heatmapService.ts together with the KMZ assembler).
   Numbers are modelled as exact rationals or reals; the JavaScript special
   values NaN and the infinities are modelled explicitly in the places where
   the pixel encoder can actually produce them. -/

set_option maxRecDepth 8000

namespace Geoheat

/-! ### Color parsing (hexToRgb, heatmapService.ts lines 4-11)
    The regex is parsed against an optional leading hash followed by exactly
    six case-insensitive hex digits; everything else falls back to black. -/

def isHexDig (c : Char) : Bool :=
  decide ('0' ≤ c ∧ c ≤ '9') || decide ('a' ≤ c ∧ c ≤ 'f') || decide ('A' ≤ c ∧ c ≤ 'F')

def hexDigVal (c : Char) : ℕ :=
  if '0' ≤ c ∧ c ≤ '9' then c.toNat - '0'.toNat
  else if 'a' ≤ c ∧ c ≤ 'f' then c.toNat - 'a'.toNat + 10
  else if 'A' ≤ c ∧ c ≤ 'F' then c.toNat - 'A'.toNat + 10
  else 0

structure Rgb where
  r : ℕ
  g : ℕ
  b : ℕ
deriving DecidableEq

def hexBody : List Char → List Char
  | '#' :: t => t
  | t => t

def hexMatches (s : List Char) : Bool :=
  (hexBody s).length == 6 && (hexBody s).all isHexDig

def pairVal (a b : Char) : ℕ := 16 * hexDigVal a + hexDigVal b

def hexToRgb (s : String) : Rgb :=
  if hexMatches s.data then
    match hexBody s.data with
    | a :: b :: c :: d :: e :: f :: _ => ⟨pairVal a b, pairVal c d, pairVal e f⟩
    | _ => ⟨0, 0, 0⟩
  else ⟨0, 0, 0⟩

/-! ### JavaScript float special values for the pixel encoder
    (heatmapService.ts lines 166-200). The cell values themselves are exact
    rationals; the only operation that can leave the rationals is the
    division `(val - cutOff) / (maxH - cutOff)`, which in JavaScript yields
    NaN or an infinity when the denominator is zero. Comparisons with NaN
    are false, arithmetic propagates NaN, and the final store into the
    `Uint8ClampedArray` clamps to [0, 255] and maps NaN to 0. -/

inductive JsNum where
  | num (q : ℚ)
  | nan
  | inf
  | ninf
deriving DecidableEq

def jsDiv (a b : ℚ) : JsNum :=
  if b = 0 then (if a = 0 then .nan else if 0 < a then .inf else .ninf)
  else .num (a / b)

def jsLtQ : JsNum → ℚ → Bool
  | .num a, q => decide (a < q)
  | .nan, _ => false
  | .inf, _ => false
  | .ninf, _ => true

def jsQLt : ℚ → JsNum → Bool
  | q, .num a => decide (q < a)
  | _, .nan => false
  | _, .inf => true
  | _, .ninf => false

def jsLeB : JsNum → JsNum → Bool
  | .nan, _ => false
  | _, .nan => false
  | .num a, .num b => decide (a ≤ b)
  | .ninf, _ => true
  | _, .inf => true
  | .inf, .num _ => false
  | .inf, .ninf => false
  | .num _, .ninf => false

def jsAdd : JsNum → JsNum → JsNum
  | .num a, .num b => .num (a + b)
  | .nan, _ => .nan
  | _, .nan => .nan
  | .inf, .ninf => .nan
  | .ninf, .inf => .nan
  | .inf, _ => .inf
  | _, .inf => .inf
  | .ninf, _ => .ninf
  | _, .ninf => .ninf

def jsMul : JsNum → JsNum → JsNum
  | .num a, .num b => .num (a * b)
  | .nan, _ => .nan
  | _, .nan => .nan
  | .inf, .num b => if b = 0 then .nan else if 0 < b then .inf else .ninf
  | .num a, .inf => if a = 0 then .nan else if 0 < a then .inf else .ninf
  | .ninf, .num b => if b = 0 then .nan else if 0 < b then .ninf else .inf
  | .num a, .ninf => if a = 0 then .nan else if 0 < a then .ninf else .inf
  | .inf, .inf => .inf
  | .inf, .ninf => .ninf
  | .ninf, .inf => .ninf
  | .ninf, .ninf => .inf

def jsFloor : JsNum → JsNum
  | .num q => .num ((⌊q⌋ : ℤ) : ℚ)
  | x => x

def toU8 : JsNum → ℕ
  | .num q => if q < 0 then 0 else if 255 < q then 255 else (⌊q⌋).toNat
  | .nan => 0
  | .inf => 255
  | .ninf => 0

def normClamped (val cutOff maxH : ℚ) : JsNum :=
  let n0 := jsDiv (val - cutOff) (maxH - cutOff)
  let n1 := if jsLtQ n0 0 then .num 0 else n0
  if jsQLt 1 n1 then .num 1 else n1

def alphaVal (val cutOff maxH : ℚ) : JsNum :=
  jsAdd (.num 77) (jsMul (.num (255 - 77)) (normClamped val cutOff maxH))

def glowVal (val cutOff maxH : ℚ) : JsNum :=
  jsMul (normClamped val cutOff maxH) (.num (6 / 10))

def channelVal (base : ℕ) (val cutOff maxH : ℚ) : JsNum :=
  jsAdd (.num (base : ℚ)) (jsMul (.num (255 - (base : ℚ))) (glowVal val cutOff maxH))

def renderPixel (val cutOff maxH : ℚ) (rgb : Rgb) : ℕ × ℕ × ℕ × ℕ :=
  if val < cutOff then (0, 0, 0, 0)
  else (toU8 (jsFloor (channelVal rgb.r val cutOff maxH)),
        toU8 (jsFloor (channelVal rgb.g val cutOff maxH)),
        toU8 (jsFloor (channelVal rgb.b val cutOff maxH)),
        toU8 (jsFloor (alphaVal val cutOff maxH)))

def pixelAlpha (val cutOff maxH : ℚ) (rgb : Rgb) : ℕ :=
  (renderPixel val cutOff maxH rgb).2.2.2

/-- Modelled from the spec: section 4.5 requires treating
`maxDensity == cutoff` as a special case forcing `norm = 0` to avoid the
division by zero; no such guard exists in the source loop. -/
def normSpecGuard (val cutOff maxH : ℚ) : JsNum :=
  if maxH = cutOff then .num 0 else normClamped val cutOff maxH

/-! ### Adaptive threshold (heatmapService.ts lines 138-153)
    Strictly positive cells are collected, sorted ascending, and the value
    at index floor((n-1) * 0.995) is the saturation reference. -/

def pIndexOf (n : ℕ) : ℕ := (⌊((n : ℚ) - 1) * (995 / 1000)⌋).toNat

def maxDensityOf {α : Type} [Zero α] (le : α → α → Bool) (valid : List α) : α :=
  if 0 < valid.length then (valid.mergeSort le).getD (pIndexOf valid.length) 0 else 0

def validValuesOf {α : Type} (pos : α → Bool) (heat : List α) : List α :=
  heat.filter pos

def leQ : ℚ → ℚ → Bool := fun a b => decide (a ≤ b)

def posQ : ℚ → Bool := fun v => decide (0 < v)

def maxDensityQ (heat : List ℚ) : ℚ := maxDensityOf leQ (validValuesOf posQ heat)

def cutoffQ (heat : List ℚ) (ratio : ℚ) : ℚ := maxDensityQ heat * ratio

/-! ### Histogram accumulation (heatmapService.ts lines 118-131) and
    bounds computation (lines 20-40), generic over the exact number field. -/

variable {α : Type} [LinearOrderedField α] [FloorRing α]

structure CsvRow (α : Type) where
  gps_latitude : α
  gps_longitude : α
  carrier : String := ""
deriving DecidableEq

structure Bounds (α : Type) where
  xmin : α
  xmax : α
  ymin : α
  ymax : α
deriving DecidableEq

def gridEps : α := 1 / 1000000000

def xIndex (b : Bounds α) (R : ℕ) (row : CsvRow α) : ℤ :=
  round ((row.gps_longitude - b.xmin) * (((R : α) - 1) / (b.xmax - b.xmin + gridEps)))

def yIndex (b : Bounds α) (R : ℕ) (row : CsvRow α) : ℤ :=
  round ((row.gps_latitude - b.ymin) * (((R : α) - 1) / (b.ymax - b.ymin + gridEps)))

def inRange (b : Bounds α) (R : ℕ) (row : CsvRow α) : Prop :=
  0 ≤ xIndex b R row ∧ xIndex b R row < R ∧ 0 ≤ yIndex b R row ∧ yIndex b R row < R

instance (b : Bounds α) (R : ℕ) (row : CsvRow α) : Decidable (inRange b R row) := by
  unfold inRange; infer_instance

def cellIndex (b : Bounds α) (R : ℕ) (row : CsvRow α) : ℕ :=
  (yIndex b R row).toNat * R + (xIndex b R row).toNat

def bumpCell (b : Bounds α) (R : ℕ) (g : ℕ → α) (row : CsvRow α) : ℕ → α :=
  if inRange b R row then (fun i => if i = cellIndex b R row then g i + 1 else g i) else g

def accGrid (b : Bounds α) (R : ℕ) (pts : List (CsvRow α)) : ℕ → α :=
  pts.foldl (bumpCell b R) (fun _ => 0)

def gridTotal (R : ℕ) (g : ℕ → α) : α := ∑ i ∈ Finset.range (R * R), g i

def minLon (p : CsvRow α) (ps : List (CsvRow α)) : α :=
  ps.foldl (fun m r => min m r.gps_longitude) p.gps_longitude

def maxLon (p : CsvRow α) (ps : List (CsvRow α)) : α :=
  ps.foldl (fun m r => max m r.gps_longitude) p.gps_longitude

def minLat (p : CsvRow α) (ps : List (CsvRow α)) : α :=
  ps.foldl (fun m r => min m r.gps_latitude) p.gps_latitude

def maxLat (p : CsvRow α) (ps : List (CsvRow α)) : α :=
  ps.foldl (fun m r => max m r.gps_latitude) p.gps_latitude

/- On the empty list the source produces a box of infinities, which the
   exact field cannot represent; the empty case is signalled with none. -/
def computeBounds : List (CsvRow α) → Option (Bounds α)
  | [] => none
  | p :: ps =>
    some ⟨minLon p ps - (maxLon p ps - minLon p ps) * (2 / 100),
          maxLon p ps + (maxLon p ps - minLon p ps) * (2 / 100),
          minLat p ps - (maxLat p ps - minLat p ps) * (2 / 100),
          maxLat p ps + (maxLat p ps - minLat p ps) * (2 / 100)⟩

/-! ### KMZ archive assembly (src/unnamed/part_000, createKmz)
    The manifest string is built piece by piece exactly as the template
    literal does; the JavaScript number-to-string rendering of the bounds is
    an external collaborator and is passed in as a parameter. Archive
    entries are listed in the order of the zip.file declarations: one image
    per layer during the forEach, then doc.kml. -/

def wsChar (c : Char) : Bool :=
  c == ' ' || c == '\t' || c == '\n' || c == '\r' || c == '\x0b' || c == '\x0c'

def sanitizeAux : Bool → List Char → List Char
  | _, [] => []
  | prev, c :: cs =>
    if wsChar c then (if prev then sanitizeAux true cs else '_' :: sanitizeAux true cs)
    else c :: sanitizeAux false cs

def sanitize (s : List Char) : List Char := sanitizeAux false s

def layerFilename (name : String) : List Char := sanitize name.data ++ (".png").data

structure KmzLayer where
  name : String
  blob : List ℕ
  north : ℚ
  south : ℚ
  east : ℚ
  west : ℚ
deriving DecidableEq

inductive KmzEntryContent where
  | image (bytes : List ℕ)
  | text (chars : List Char)
deriving DecidableEq

def kmlHeader : String :=
  "<?xml version=\"1.0\" encoding=\"UTF-8\"?>\n<kml xmlns=\"http://www.opengis.net/kml/2.2\">\n  <Folder>\n    <name>Operators Density Heatmaps</name>\n    <open>1</open>\n"

def kmlT1 : String := "\n    <GroundOverlay>\n      <name>"

def kmlT2 : String := "</name>\n      <Icon>\n        <href>"

def kmlT3 : String := "</href>\n      </Icon>\n      <LatLonBox>\n        <north>"

def kmlT4 : String := "</north>\n        <south>"

def kmlT5 : String := "</south>\n        <east>"

def kmlT6 : String := "</east>\n        <west>"

def kmlT7 : String := "</west>\n      </LatLonBox>\n    </GroundOverlay>\n"

def kmlFooter : String := "\n  </Folder>\n</kml>"

def overlayBlock (numStr : ℚ → String) (l : KmzLayer) : List Char :=
  kmlT1.data ++ (l.name.data ++ (kmlT2.data ++ (layerFilename l.name ++
    (kmlT3.data ++ ((numStr l.north).data ++ (kmlT4.data ++ ((numStr l.south).data ++
      (kmlT5.data ++ ((numStr l.east).data ++ (kmlT6.data ++ ((numStr l.west).data ++
        kmlT7.data)))))))))))

def kmlContent (numStr : ℚ → String) (layers : List KmzLayer) : List Char :=
  (layers.foldl (fun acc l => acc ++ overlayBlock numStr l) kmlHeader.data) ++ kmlFooter.data

def kmzEntries (numStr : ℚ → String) (layers : List KmzLayer) :
    List (String × KmzEntryContent) :=
  layers.map (fun l => (String.mk (layerFilename l.name), KmzEntryContent.image l.blob)) ++
    [("doc.kml", KmzEntryContent.text (kmlContent numStr layers))]

def isPrefB : List Char → List Char → Bool
  | [], _ => true
  | _ :: _, [] => false
  | a :: as, b :: bs => a == b && isPrefB as bs

def isSufB (p l : List Char) : Bool := isPrefB p.reverse l.reverse

def countOccur (p : List Char) : List Char → ℕ
  | [] => 0
  | c :: cs => (if isPrefB p (c :: cs) then 1 else 0) + countOccur p cs

def openTag : List Char := ("<GroundOverlay>").data

/-! ### Gaussian kernel and separable convolution over the reals
    (heatmapService.ts lines 45-108) and the per-layer pipeline assembly
    feeding the adaptive threshold (lines 118-153). -/

def clampIdx (p : ℤ) (w : ℕ) : ℕ :=
  if p < 0 then 0 else if (w : ℤ) ≤ p then w - 1 else p.toNat

noncomputable def kernelSize (σ : ℝ) : ℕ := ⌈σ * 3⌉₊ * 2 + 1

noncomputable def kCenter (σ : ℝ) : ℕ := kernelSize σ / 2

noncomputable def gaussRaw (σ : ℝ) (i : ℕ) : ℝ :=
  Real.exp (-(((i : ℝ) - (kCenter σ : ℝ)) * ((i : ℝ) - (kCenter σ : ℝ))) / (2 * σ * σ))

noncomputable def gaussSum (σ : ℝ) : ℝ := ∑ i ∈ Finset.range (kernelSize σ), gaussRaw σ i

noncomputable def gaussKernel (σ : ℝ) (i : ℕ) : ℝ := gaussRaw σ i / gaussSum σ

noncomputable def convolveH (data : ℕ → ℝ) (W H : ℕ) (kernel : ℕ → ℝ) (kSize : ℕ) :
    ℕ → ℝ :=
  fun i =>
    ∑ k ∈ Finset.range kSize,
      data ((i / W) * W + clampIdx (((i % W : ℕ) : ℤ) + (k : ℤ) - ((kSize / 2 : ℕ) : ℤ)) W) *
        kernel k

noncomputable def convolveV (data : ℕ → ℝ) (W H : ℕ) (kernel : ℕ → ℝ) (kSize : ℕ) :
    ℕ → ℝ :=
  fun i =>
    ∑ k ∈ Finset.range kSize,
      data (clampIdx (((i / W : ℕ) : ℤ) + (k : ℤ) - ((kSize / 2 : ℕ) : ℤ)) H * W + i % W) *
        kernel k

noncomputable def smoothGrid (σ : ℝ) (W H : ℕ) (data : ℕ → ℝ) : ℕ → ℝ :=
  convolveV (convolveH data W H (gaussKernel σ) (kernelSize σ)) W H
    (gaussKernel σ) (kernelSize σ)

noncomputable def sumWH (W H : ℕ) (g : ℕ → ℝ) : ℝ :=
  ∑ y ∈ Finset.range H, ∑ x ∈ Finset.range W, g (y * W + x)

open Classical in
noncomputable def leR : ℝ → ℝ → Bool := fun a b => decide (a ≤ b)

open Classical in
noncomputable def posR : ℝ → Bool := fun v => decide (0 < v)

noncomputable def heatGrid (b : Bounds ℝ) (R : ℕ) (pts : List (CsvRow ℝ)) (σ : ℝ) :
    ℕ → ℝ :=
  smoothGrid σ R R (accGrid b R pts)

noncomputable def heatValid (b : Bounds ℝ) (R : ℕ) (pts : List (CsvRow ℝ)) (σ : ℝ) :
    List ℝ :=
  validValuesOf posR ((List.range (R * R)).map (heatGrid b R pts σ))

noncomputable def heatMaxH (b : Bounds ℝ) (R : ℕ) (pts : List (CsvRow ℝ)) (σ : ℝ) : ℝ :=
  maxDensityOf leR (heatValid b R pts σ)

noncomputable def heatCutoff (b : Bounds ℝ) (R : ℕ) (pts : List (CsvRow ℝ))
    (σ ratio : ℝ) : ℝ :=
  heatMaxH b R pts σ * ratio

/-! ### Helper lemmas -/

theorem maxDensityOf_nonneg {β : Type} [Zero β] [PartialOrder β]
    (le : β → β → Bool) (valid : List β) (h : ∀ x ∈ valid, 0 < x) :
    0 ≤ maxDensityOf le valid := by
  unfold maxDensityOf
  split
  · rw [List.getD_eq_getElem?_getD]
    rcases h' : (valid.mergeSort le)[pIndexOf valid.length]? with _ | v
    · simp
    · simp only [Option.getD_some]
      have hv : v ∈ valid.mergeSort le := List.getElem?_mem h'
      exact (h v ((List.mergeSort_perm valid le).mem_iff.mp hv)).le
  · exact le_refl 0

theorem validValuesQ_pos (heat : List ℚ) : ∀ x ∈ validValuesOf posQ heat, 0 < x := by
  intro x hx
  have := (List.mem_filter.mp hx).2
  simpa [posQ] using this

theorem normClamped_eq_num (v c M : ℚ) (h : c < M) (hv : c ≤ v) :
    normClamped v c M =
      .num (if 1 < (v - c) / (M - c) then 1 else (v - c) / (M - c)) := by
  have hM : M - c ≠ 0 := sub_ne_zero.mpr (ne_of_gt h)
  have h0 : ¬ ((v - c) / (M - c) < 0) :=
    not_lt.mpr (div_nonneg (sub_nonneg.mpr hv) (le_of_lt (sub_pos.mpr h)))
  simp only [normClamped, jsDiv, if_neg hM, jsLtQ, decide_eq_true_eq, if_neg h0, jsQLt]
  split <;> simp_all

theorem toU8_jsFloor_num (x : ℚ) (h0 : 0 ≤ x) (h255 : x ≤ 255) :
    toU8 (jsFloor (.num x)) = (⌊x⌋).toNat := by
  have ha : ¬ (((⌊x⌋ : ℤ) : ℚ) < 0) := not_lt.mpr (by exact_mod_cast Int.floor_nonneg.mpr h0)
  have hb : ¬ ((255 : ℚ) < ((⌊x⌋ : ℤ) : ℚ)) := not_lt.mpr (le_trans (Int.floor_le x) h255)
  simp only [jsFloor, toU8, if_neg ha, if_neg hb, Int.floor_intCast]

theorem normClamped_self_nan (x : ℚ) : normClamped x x x = JsNum.nan := by
  simp [normClamped, jsDiv, sub_self, jsLtQ, jsQLt]

theorem pixelAlpha_self_zero (x : ℚ) (rgb : Rgb) : pixelAlpha x x x rgb = 0 := by
  simp [pixelAlpha, renderPixel, lt_irrefl, alphaVal, normClamped_self_nan, jsMul, jsAdd,
    jsFloor, toU8]

/-! ### Claim theorems for the pixel encoder, threshold and color parser -/

/-- C8: the color parser is a total function; every input that does not match
an optional hash followed by six case-insensitive hex digits deterministically
yields black, and in particular the input "notacolor" yields (0, 0, 0). -/
theorem c8_hex_fallback :
    (∀ s : String, hexMatches s.data = false → hexToRgb s = ⟨0, 0, 0⟩) ∧
    hexToRgb ("notacolor") = ⟨0, 0, 0⟩ := by
  constructor
  · intro s hs
    simp [hexToRgb, hs]
  · decide

/-- Witness for C8 at the concrete input "notacolor". -/
theorem c8_hex_fallback_witness :
    hexMatches ("notacolor").data = false ∧ hexToRgb ("notacolor") = ⟨0, 0, 0⟩ :=
  ⟨by decide, c8_hex_fallback.1 ("notacolor") (by decide)⟩

/-- C6 (code evaluation at the failing input): with
`val = cutoff = maxDensity = 1` the source computes `norm = (1-1)/(1-1)`,
which is NaN; neither clamping guard replaces it, so the emitted pixel is
fully transparent black, while the guard the spec mandates would force
`norm = 0` and emit alpha byte 77. -/
theorem c6_nan_divergence :
    normClamped 1 1 1 = JsNum.nan ∧
    renderPixel 1 1 1 ⟨0, 0, 0⟩ = (0, 0, 0, 0) ∧
    normSpecGuard 1 1 1 = JsNum.num 0 ∧
    toU8 (jsFloor (jsAdd (.num 77) (jsMul (.num (255 - 77)) (normSpecGuard 1 1 1)))) = 77 := by
  have hguard : normSpecGuard 1 1 1 = JsNum.num 0 := by simp [normSpecGuard]
  refine ⟨normClamped_self_nan 1, ?_, hguard, ?_⟩
  · simp [renderPixel, lt_irrefl, channelVal, glowVal, alphaVal, normClamped_self_nan,
      jsMul, jsAdd, jsFloor, toU8]
  · rw [hguard]
    have h1 : jsMul (.num (255 - 77)) (.num 0) = .num 0 := by simp [jsMul]
    rw [h1]
    have h2 : jsAdd (.num 77) (.num 0) = .num 77 := by simp [jsAdd]
    rw [h2]
    have := toU8_jsFloor_num 77 (by norm_num) (by norm_num)
    simpa using this

/-- C5: with `cutoff < maxDensity`, a cell below the cutoff is emitted fully
transparent, and a cell exactly at `maxDensity` has `norm = 1`, alpha byte
255, and every RGB channel equal to
`floor (base + (255 - base) * 0.6)` (the base color mixed 60 percent
toward white). -/
theorem c5_pixel_extremes (v c M : ℚ) (rgb : Rgb) (hcM : c < M)
    (hr : rgb.r ≤ 255) (hg : rgb.g ≤ 255) (hb : rgb.b ≤ 255) :
    (v < c → renderPixel v c M rgb = (0, 0, 0, 0)) ∧
    (v = M →
      normClamped v c M = JsNum.num 1 ∧
      renderPixel v c M rgb =
        ((⌊(rgb.r : ℚ) + (255 - (rgb.r : ℚ)) * (6 / 10)⌋).toNat,
         (⌊(rgb.g : ℚ) + (255 - (rgb.g : ℚ)) * (6 / 10)⌋).toNat,
         (⌊(rgb.b : ℚ) + (255 - (rgb.b : ℚ)) * (6 / 10)⌋).toNat, 255)) := by
  constructor
  · intro hv
    simp [renderPixel, hv]
  · intro hv
    rw [hv]
    have hM : M - c ≠ 0 := sub_ne_zero.mpr (ne_of_gt hcM)
    have hnorm : normClamped M c M = JsNum.num 1 := by
      rw [normClamped_eq_num M c M hcM (le_of_lt hcM), div_self hM]
      norm_num
    refine ⟨hnorm, ?_⟩
    have hnc : ¬ (M < c) := not_lt.mpr (le_of_lt hcM)
    have hch : ∀ base : ℕ, base ≤ 255 →
        toU8 (jsFloor (channelVal base M c M)) =
          (⌊(base : ℚ) + (255 - (base : ℚ)) * (6 / 10)⌋).toNat := by
      intro base hbase
      have hb255 : (base : ℚ) ≤ 255 := by exact_mod_cast hbase
      have hglow : glowVal M c M = JsNum.num (6 / 10) := by
        simp [glowVal, hnorm, jsMul]
      have hchv : channelVal base M c M = JsNum.num ((base : ℚ) + (255 - (base : ℚ)) * (6 / 10)) := by
        simp [channelVal, hglow, jsMul, jsAdd]
      rw [hchv]
      refine toU8_jsFloor_num _ ?_ ?_
      · have : (0 : ℚ) ≤ (255 - (base : ℚ)) * (6 / 10) := by
          apply mul_nonneg (by linarith) (by norm_num)
        positivity
      · nlinarith
    have halpha : toU8 (jsFloor (alphaVal M c M)) = 255 := by
      have : alphaVal M c M = JsNum.num 255 := by
        simp [alphaVal, hnorm, jsMul, jsAdd]
      rw [this]
      have := toU8_jsFloor_num 255 (by norm_num) (by norm_num)
      simpa using this
    simp only [renderPixel, if_neg hnc]
    rw [hch rgb.r hr, hch rgb.g hg, hch rgb.b hb, halpha]

/-- Witness for C5 at `v = M = 3`, `c = 1`, base color (10, 20, 30). -/
theorem c5_pixel_extremes_witness :
    (1 : ℚ) < 3 ∧
    ((0 : ℚ) < 1 → renderPixel 0 1 3 ⟨10, 20, 30⟩ = (0, 0, 0, 0)) ∧
    ((3 : ℚ) = 3 →
      normClamped 3 1 3 = JsNum.num 1 ∧
      renderPixel 3 1 3 ⟨10, 20, 30⟩ =
        ((⌊((10 : ℕ) : ℚ) + (255 - ((10 : ℕ) : ℚ)) * (6 / 10)⌋).toNat,
         (⌊((20 : ℕ) : ℚ) + (255 - ((20 : ℕ) : ℚ)) * (6 / 10)⌋).toNat,
         (⌊((30 : ℕ) : ℚ) + (255 - ((30 : ℕ) : ℚ)) * (6 / 10)⌋).toNat, 255)) :=
  ⟨by norm_num,
   (c5_pixel_extremes 0 1 3 ⟨10, 20, 30⟩ (by norm_num) (by norm_num) (by norm_num) (by norm_num)).1,
   (c5_pixel_extremes 3 1 3 ⟨10, 20, 30⟩ (by norm_num) (by norm_num) (by norm_num) (by norm_num)).2⟩

/-- C7: with a fixed pair `cutoff < maxDensity`, both the pre-quantisation
alpha value `77 + (255 - 77) * norm` and the white-mix factor
`glow = norm * 0.6` are monotone non-decreasing in the cell value over the
range at or above the cutoff. -/
theorem c7_monotone (c M v1 v2 : ℚ) (hcM : c < M) (h1 : c ≤ v1) (h12 : v1 ≤ v2) :
    jsLeB (alphaVal v1 c M) (alphaVal v2 c M) = true ∧
    jsLeB (glowVal v1 c M) (glowVal v2 c M) = true := by
  have h2 : c ≤ v2 := le_trans h1 h12
  have hpos : (0 : ℚ) < M - c := sub_pos.mpr hcM
  have hd : (v1 - c) / (M - c) ≤ (v2 - c) / (M - c) :=
    div_le_div_of_nonneg_right (sub_le_sub_right h12 c) hpos.le
  have hn1 := normClamped_eq_num v1 c M hcM h1
  have hn2 := normClamped_eq_num v2 c M hcM h2
  have hmono :
      (if 1 < (v1 - c) / (M - c) then (1 : ℚ) else (v1 - c) / (M - c)) ≤
      (if 1 < (v2 - c) / (M - c) then (1 : ℚ) else (v2 - c) / (M - c)) := by
    split_ifs <;> linarith
  constructor
  · simp only [alphaVal, hn1, hn2, jsMul, jsAdd, jsLeB, decide_eq_true_eq]
    linarith
  · simp only [glowVal, hn1, hn2, jsMul, jsLeB, decide_eq_true_eq]
    nlinarith

/-- Witness for C7 at `c = 0`, `M = 2`, `v1 = 1`, `v2 = 3`. -/
theorem c7_monotone_witness :
    ((0 : ℚ) < 2 ∧ (0 : ℚ) ≤ 1 ∧ (1 : ℚ) ≤ 3) ∧
    jsLeB (alphaVal 1 0 2) (alphaVal 3 0 2) = true ∧
    jsLeB (glowVal 1 0 2) (glowVal 3 0 2) = true :=
  ⟨by norm_num, c7_monotone 0 2 1 3 (by norm_num) (by norm_num) (by norm_num)⟩

/-- C4: for every grid of cell values and threshold ratio in [0, 1] the
cutoff is at most the saturation reference, and when the grid has no
strictly positive cell both are zero and every emitted pixel has alpha
byte 0 (here through the NaN value of `(0 - 0) / (0 - 0)`, which the
clamped byte store maps to 0). -/
theorem c4_threshold (heat : List ℚ) (ratio : ℚ) (h0 : 0 ≤ ratio) (h1 : ratio ≤ 1) :
    cutoffQ heat ratio ≤ maxDensityQ heat ∧
    ((∀ v ∈ heat, v ≤ 0) →
      maxDensityQ heat = 0 ∧ cutoffQ heat ratio = 0 ∧
      ∀ v ∈ heat, ∀ rgb : Rgb, pixelAlpha v (cutoffQ heat ratio) (maxDensityQ heat) rgb = 0) := by
  have hmax : 0 ≤ maxDensityQ heat :=
    maxDensityOf_nonneg leQ (validValuesOf posQ heat) (validValuesQ_pos heat)
  constructor
  · exact mul_le_of_le_one_right hmax h1
  · intro hz
    have hempty : validValuesOf posQ heat = [] := by
      unfold validValuesOf
      rw [List.filter_eq_nil_iff]
      intro a ha
      simp [posQ, not_lt.mpr (hz a ha)]
    have hm0 : maxDensityQ heat = 0 := by
      unfold maxDensityQ
      rw [hempty]
      simp [maxDensityOf]
    have hc0 : cutoffQ heat ratio = 0 := by
      unfold cutoffQ
      rw [hm0, zero_mul]
    refine ⟨hm0, hc0, ?_⟩
    intro v hv rgb
    rw [hc0, hm0]
    rcases lt_or_eq_of_le (hz v hv) with hlt | heq
    · simp [pixelAlpha, renderPixel, hlt]
    · subst heq
      exact pixelAlpha_self_zero 0 rgb

/-- Witness for C4 at the grid [0, -2] (no strictly positive cell) and
ratio 3/10. -/
theorem c4_threshold_witness :
    ((0 : ℚ) ≤ 3 / 10 ∧ (3 / 10 : ℚ) ≤ 1 ∧ ∀ v ∈ ([0, -2] : List ℚ), v ≤ 0) ∧
    (cutoffQ [0, -2] (3 / 10) ≤ maxDensityQ [0, -2] ∧
      maxDensityQ [0, -2] = 0 ∧ cutoffQ [0, -2] (3 / 10) = 0 ∧
      ∀ v ∈ ([0, -2] : List ℚ), ∀ rgb : Rgb,
        pixelAlpha v (cutoffQ [0, -2] (3 / 10)) (maxDensityQ [0, -2]) rgb = 0) := by
  have h := c4_threshold [0, -2] (3 / 10) (by norm_num) (by norm_num)
  have hz : ∀ v ∈ ([0, -2] : List ℚ), v ≤ 0 := by
    intro v hv
    rcases List.mem_cons.mp hv with rfl | hv
    · norm_num
    · rcases List.mem_singleton.mp hv with rfl
      norm_num
  exact ⟨⟨by norm_num, by norm_num, hz⟩, h.1, h.2 hz⟩

/-! ### Histogram accumulation: helper lemmas and claim C1 -/

theorem round_mono_of_le {x y : ℚ} (h : x ≤ y) : round x ≤ round y := by
  rw [round_eq, round_eq]
  exact Int.floor_le_floor (by linarith)

theorem gridEps_pos : (0 : ℚ) < gridEps := by norm_num [gridEps]

theorem cellIndex_lt (b : Bounds ℚ) (R : ℕ) (row : CsvRow ℚ) (h : inRange b R row) :
    cellIndex b R row < R * R := by
  obtain ⟨hx0, hxR, hy0, hyR⟩ := h
  have hx : (xIndex b R row).toNat < R := by omega
  have hy : (yIndex b R row).toNat < R := by omega
  calc (yIndex b R row).toNat * R + (xIndex b R row).toNat
      < (yIndex b R row).toNat * R + R := by omega
    _ = ((yIndex b R row).toNat + 1) * R := by ring
    _ ≤ R * R := Nat.mul_le_mul_right R (by omega)

theorem gridTotal_bump (b : Bounds ℚ) (R : ℕ) (g : ℕ → ℚ) (row : CsvRow ℚ) :
    gridTotal R (bumpCell b R g row) =
      gridTotal R g + (if inRange b R row then 1 else 0) := by
  unfold bumpCell
  split
  · rename_i h
    unfold gridTotal
    have hsum : ∀ i : ℕ,
        (if i = cellIndex b R row then g i + 1 else g i) =
          g i + (if i = cellIndex b R row then 1 else 0) := by
      intro i
      split_ifs <;> ring
    rw [Finset.sum_congr rfl (fun i _ => hsum i), Finset.sum_add_distrib,
      Finset.sum_ite_eq' (Finset.range (R * R)) (cellIndex b R row) (fun _ => (1 : ℚ))]
    rw [if_pos (Finset.mem_range.mpr (cellIndex_lt b R row h))]
  · rename_i h
    simp

theorem gridTotal_foldl (b : Bounds ℚ) (R : ℕ) (pts : List (CsvRow ℚ)) :
    ∀ g : ℕ → ℚ,
      gridTotal R (pts.foldl (bumpCell b R) g) =
        gridTotal R g + ((pts.countP (fun row => decide (inRange b R row)) : ℕ) : ℚ) := by
  induction pts with
  | nil => intro g; simp
  | cons p t ih =>
    intro g
    rw [List.foldl_cons, ih (bumpCell b R g p), gridTotal_bump, List.countP_cons]
    by_cases h : inRange b R p
    · simp [h]
      ring
    · simp [h]

/-- C1 (amended): the total of the accumulated grid equals the number of
points whose rounded indices lie in [0, R) on both axes; each in-range point
increments exactly one cell by 1.0; a point exactly at the lower bound maps
to index 0 and a point exactly at the upper bound maps to an index inside
[0, R) — never out of range, though not necessarily 0 or R-1. -/
theorem c1_histogram (b : Bounds ℚ) (R : ℕ) (pts : List (CsvRow ℚ)) (hR : 1 ≤ R)
    (hx : b.xmin ≤ b.xmax) (hy : b.ymin ≤ b.ymax) :
    gridTotal R (accGrid b R pts) =
      ((pts.countP (fun row => decide (inRange b R row)) : ℕ) : ℚ) ∧
    (∀ (g : ℕ → ℚ) (row : CsvRow ℚ), inRange b R row →
      bumpCell b R g row (cellIndex b R row) = g (cellIndex b R row) + 1 ∧
      ∀ j, j ≠ cellIndex b R row → bumpCell b R g row j = g j) ∧
    (∀ row : CsvRow ℚ, row.gps_longitude = b.xmin → xIndex b R row = 0) ∧
    (∀ row : CsvRow ℚ, row.gps_latitude = b.ymin → yIndex b R row = 0) ∧
    (∀ row : CsvRow ℚ, row.gps_longitude = b.xmax →
      0 ≤ xIndex b R row ∧ xIndex b R row < R) ∧
    (∀ row : CsvRow ℚ, row.gps_latitude = b.ymax →
      0 ≤ yIndex b R row ∧ yIndex b R row < R) := by
  have hR1 : (1 : ℚ) ≤ (R : ℚ) := by exact_mod_cast hR
  have edge : ∀ lo hi : ℚ, lo ≤ hi →
      0 ≤ round ((hi - lo) * (((R : ℚ) - 1) / (hi - lo + gridEps))) ∧
      round ((hi - lo) * (((R : ℚ) - 1) / (hi - lo + gridEps))) < R := by
    intro lo hi hlh
    have hd0 : (0 : ℚ) ≤ hi - lo := sub_nonneg.mpr hlh
    have hde : (0 : ℚ) < hi - lo + gridEps := by
      have := gridEps_pos
      linarith
    have hval0 : (0 : ℚ) ≤ (hi - lo) * (((R : ℚ) - 1) / (hi - lo + gridEps)) := by
      apply mul_nonneg hd0
      apply div_nonneg (by linarith) hde.le
    have hval1 : (hi - lo) * (((R : ℚ) - 1) / (hi - lo + gridEps)) ≤ (R : ℚ) - 1 := by
      rw [mul_div_assoc']
      rw [div_le_iff₀ hde]
      have := gridEps_pos
      nlinarith
    constructor
    · have h0 : round (0 : ℚ) ≤ round ((hi - lo) * (((R : ℚ) - 1) / (hi - lo + gridEps))) :=
        round_mono_of_le hval0
      rwa [round_zero] at h0
    · have hlt : round ((hi - lo) * (((R : ℚ) - 1) / (hi - lo + gridEps))) ≤ round ((R : ℚ) - 1) :=
        round_mono_of_le hval1
      have hroundR : round ((R : ℚ) - 1) = (R : ℤ) - 1 := by
        have hc : ((R : ℚ) - 1) = (((R : ℤ) - 1 : ℤ) : ℚ) := by push_cast; ring
        rw [hc, round_intCast]
      rw [hroundR] at hlt
      omega
  refine ⟨gridTotal_foldl b R pts (fun _ => 0) |>.trans (by simp [gridTotal]), ?_, ?_, ?_, ?_, ?_⟩
  · intro g row h
    constructor
    · simp [bumpCell, h]
    · intro j hj
      simp [bumpCell, h, hj]
  · intro row h
    simp [xIndex, h]
  · intro row h
    simp [yIndex, h]
  · intro row h
    rw [xIndex, h]
    exact edge b.xmin b.xmax hx
  · intro row h
    rw [yIndex, h]
    exact edge b.ymin b.ymax hy

/-- Witness for C1 on a 2 by 2 grid over the unit box with a single point at
the lower-left corner. -/
theorem c1_histogram_witness :
    (1 ≤ 2 ∧ (0 : ℚ) ≤ 1 ∧ (0 : ℚ) ≤ 1) ∧
    gridTotal 2 (accGrid (⟨0, 1, 0, 1⟩ : Bounds ℚ) 2 [⟨0, 0, ""⟩]) =
      ((([⟨0, 0, ""⟩] : List (CsvRow ℚ)).countP
        (fun row => decide (inRange (⟨0, 1, 0, 1⟩ : Bounds ℚ) 2 row)) : ℕ) : ℚ) :=
  ⟨⟨by norm_num, by norm_num, by norm_num⟩,
   (c1_histogram (⟨0, 1, 0, 1⟩ : Bounds ℚ) 2 [⟨0, 0, ""⟩] (by norm_num) (by norm_num)
     (by norm_num)).1⟩

/-- Counterexample to C1 as stated: with bounds whose longitude span equals
the epsilon guard (xmin = 0, xmax = 1e-9) and R = 4, the point exactly at
the upper longitude edge maps to index round(3/2) = 2, which is neither 0
nor R - 1 = 3. -/
theorem c1_edge_counterexample :
    ¬ (xIndex (⟨0, 1 / 1000000000, 0, 1⟩ : Bounds ℚ) 4 ⟨0, 1 / 1000000000, ""⟩ = 0 ∨
       xIndex (⟨0, 1 / 1000000000, 0, 1⟩ : Bounds ℚ) 4 ⟨0, 1 / 1000000000, ""⟩ = 4 - 1) := by
  have h : xIndex (⟨0, 1 / 1000000000, 0, 1⟩ : Bounds ℚ) 4 ⟨0, 1 / 1000000000, ""⟩ = 2 := by
    norm_num [xIndex, gridEps, round_eq]
  rw [h]
  norm_num

/-! ### Bounds computation: helper lemmas and claim C2 -/

theorem foldl_min_bound (f : CsvRow ℚ → ℚ) (l : List (CsvRow ℚ)) :
    ∀ a : ℚ, l.foldl (fun m r => min m (f r)) a ≤ a ∧
      ∀ q ∈ l, l.foldl (fun m r => min m (f r)) a ≤ f q := by
  induction l with
  | nil => intro a; exact ⟨le_refl a, by simp⟩
  | cons r t ih =>
    intro a
    refine ⟨le_trans (ih (min a (f r))).1 (min_le_left a (f r)), ?_⟩
    intro q hq
    rcases List.mem_cons.mp hq with rfl | hq
    · exact le_trans (ih (min a (f q))).1 (min_le_right a (f q))
    · exact (ih (min a (f r))).2 q hq

theorem foldl_max_bound (f : CsvRow ℚ → ℚ) (l : List (CsvRow ℚ)) :
    ∀ a : ℚ, a ≤ l.foldl (fun m r => max m (f r)) a ∧
      ∀ q ∈ l, f q ≤ l.foldl (fun m r => max m (f r)) a := by
  induction l with
  | nil => intro a; exact ⟨le_refl a, by simp⟩
  | cons r t ih =>
    intro a
    refine ⟨le_trans (le_max_left a (f r)) (ih (max a (f r))).1, ?_⟩
    intro q hq
    rcases List.mem_cons.mp hq with rfl | hq
    · exact le_trans (le_max_right a (f q)) (ih (max a (f q))).1
    · exact (ih (max a (f r))).2 q hq

theorem foldl_min_const (f : CsvRow ℚ → ℚ) (v : ℚ) (l : List (CsvRow ℚ)) :
    ∀ a : ℚ, a = v → (∀ q ∈ l, f q = v) →
      l.foldl (fun m r => min m (f r)) a = v := by
  induction l with
  | nil => intro a ha _; simpa using ha
  | cons r t ih =>
    intro a ha hl
    rw [List.foldl_cons]
    exact ih (min a (f r))
      (by rw [ha, hl r (List.mem_cons_self r t), min_self])
      (fun q hq => hl q (List.mem_cons_of_mem r hq))

theorem foldl_max_const (f : CsvRow ℚ → ℚ) (v : ℚ) (l : List (CsvRow ℚ)) :
    ∀ a : ℚ, a = v → (∀ q ∈ l, f q = v) →
      l.foldl (fun m r => max m (f r)) a = v := by
  induction l with
  | nil => intro a ha _; simpa using ha
  | cons r t ih =>
    intro a ha hl
    rw [List.foldl_cons]
    exact ih (max a (f r))
      (by rw [ha, hl r (List.mem_cons_self r t), max_self])
      (fun q hq => hl q (List.mem_cons_of_mem r hq))

/-- C2: for a non-empty point list the computed box contains every input
point, it is exactly the raw min/max box expanded symmetrically by 2 percent
of each span (so the padding only expands, never contracts), and when all
points coincide the padding is zero and the box degenerates to that point. -/
theorem c2_bounds (pts : List (CsvRow ℚ)) (bb : Bounds ℚ)
    (h : computeBounds pts = some bb) :
    (∀ q ∈ pts, bb.xmin ≤ q.gps_longitude ∧ q.gps_longitude ≤ bb.xmax ∧
      bb.ymin ≤ q.gps_latitude ∧ q.gps_latitude ≤ bb.ymax) ∧
    (∃ p ps, pts = p :: ps ∧
      bb.xmin = minLon p ps - (maxLon p ps - minLon p ps) * (2 / 100) ∧
      bb.xmax = maxLon p ps + (maxLon p ps - minLon p ps) * (2 / 100) ∧
      bb.ymin = minLat p ps - (maxLat p ps - minLat p ps) * (2 / 100) ∧
      bb.ymax = maxLat p ps + (maxLat p ps - minLat p ps) * (2 / 100) ∧
      bb.xmin ≤ minLon p ps ∧ maxLon p ps ≤ bb.xmax ∧
      bb.ymin ≤ minLat p ps ∧ maxLat p ps ≤ bb.ymax) ∧
    (∀ p0 : CsvRow ℚ,
      (∀ q ∈ pts, q.gps_longitude = p0.gps_longitude ∧ q.gps_latitude = p0.gps_latitude) →
      bb = ⟨p0.gps_longitude, p0.gps_longitude, p0.gps_latitude, p0.gps_latitude⟩) := by
  match pts, h with
  | p :: ps, h =>
    rw [computeBounds] at h
    have hb := (Option.some_injective _ h).symm
    have hxlo := foldl_min_bound (fun r => r.gps_longitude) ps
    have hxhi := foldl_max_bound (fun r => r.gps_longitude) ps
    have hylo := foldl_min_bound (fun r => r.gps_latitude) ps
    have hyhi := foldl_max_bound (fun r => r.gps_latitude) ps
    have hxmm : minLon p ps ≤ maxLon p ps :=
      le_trans ((hxlo p.gps_longitude).1) ((hxhi p.gps_longitude).1)
    have hymm : minLat p ps ≤ maxLat p ps :=
      le_trans ((hylo p.gps_latitude).1) ((hyhi p.gps_latitude).1)
    have hxpad : (0 : ℚ) ≤ (maxLon p ps - minLon p ps) * (2 / 100) := by
      apply mul_nonneg (by linarith) (by norm_num)
    have hypad : (0 : ℚ) ≤ (maxLat p ps - minLat p ps) * (2 / 100) := by
      apply mul_nonneg (by linarith) (by norm_num)
    have hminq : ∀ q ∈ p :: ps, minLon p ps ≤ q.gps_longitude := by
      intro q hq
      rcases List.mem_cons.mp hq with rfl | hq
      · exact (hxlo q.gps_longitude).1
      · exact (hxlo p.gps_longitude).2 q hq
    have hmaxq : ∀ q ∈ p :: ps, q.gps_longitude ≤ maxLon p ps := by
      intro q hq
      rcases List.mem_cons.mp hq with rfl | hq
      · exact (hxhi q.gps_longitude).1
      · exact (hxhi p.gps_longitude).2 q hq
    have hminqY : ∀ q ∈ p :: ps, minLat p ps ≤ q.gps_latitude := by
      intro q hq
      rcases List.mem_cons.mp hq with rfl | hq
      · exact (hylo q.gps_latitude).1
      · exact (hylo p.gps_latitude).2 q hq
    have hmaxqY : ∀ q ∈ p :: ps, q.gps_latitude ≤ maxLat p ps := by
      intro q hq
      rcases List.mem_cons.mp hq with rfl | hq
      · exact (hyhi q.gps_latitude).1
      · exact (hyhi p.gps_latitude).2 q hq
    refine ⟨?_, ?_, ?_⟩
    · intro q hq
      rw [hb]
      exact ⟨by have := hminq q hq; dsimp only; linarith,
             by have := hmaxq q hq; dsimp only; linarith,
             by have := hminqY q hq; dsimp only; linarith,
             by have := hmaxqY q hq; dsimp only; linarith⟩
    · refine ⟨p, ps, rfl, ?_, ?_, ?_, ?_, ?_, ?_, ?_, ?_⟩ <;> rw [hb] <;> dsimp only <;> linarith
    · intro p0 hall
      have hpx : p.gps_longitude = p0.gps_longitude := (hall p (List.mem_cons_self p ps)).1
      have hpy : p.gps_latitude = p0.gps_latitude := (hall p (List.mem_cons_self p ps)).2
      have hminx : minLon p ps = p0.gps_longitude :=
        foldl_min_const (fun r => r.gps_longitude) p0.gps_longitude ps p.gps_longitude hpx
          (fun q hq => (hall q (List.mem_cons_of_mem p hq)).1)
      have hmaxx : maxLon p ps = p0.gps_longitude :=
        foldl_max_const (fun r => r.gps_longitude) p0.gps_longitude ps p.gps_longitude hpx
          (fun q hq => (hall q (List.mem_cons_of_mem p hq)).1)
      have hminy : minLat p ps = p0.gps_latitude :=
        foldl_min_const (fun r => r.gps_latitude) p0.gps_latitude ps p.gps_latitude hpy
          (fun q hq => (hall q (List.mem_cons_of_mem p hq)).2)
      have hmaxy : maxLat p ps = p0.gps_latitude :=
        foldl_max_const (fun r => r.gps_latitude) p0.gps_latitude ps p.gps_latitude hpy
          (fun q hq => (hall q (List.mem_cons_of_mem p hq)).2)
      rw [hb, Bounds.mk.injEq]
      rw [hminx, hmaxx, hminy, hmaxy]
      norm_num

/-- Witness for C2 on two concrete points. -/
theorem c2_bounds_witness :
    computeBounds ([⟨1, 2, ""⟩, ⟨3, 4, ""⟩] : List (CsvRow ℚ)) =
      some ⟨49 / 25, 101 / 25, 24 / 25, 76 / 25⟩ ∧
    (∀ q ∈ ([⟨1, 2, ""⟩, ⟨3, 4, ""⟩] : List (CsvRow ℚ)),
      (⟨49 / 25, 101 / 25, 24 / 25, 76 / 25⟩ : Bounds ℚ).xmin ≤ q.gps_longitude ∧
      q.gps_longitude ≤ (⟨49 / 25, 101 / 25, 24 / 25, 76 / 25⟩ : Bounds ℚ).xmax ∧
      (⟨49 / 25, 101 / 25, 24 / 25, 76 / 25⟩ : Bounds ℚ).ymin ≤ q.gps_latitude ∧
      q.gps_latitude ≤ (⟨49 / 25, 101 / 25, 24 / 25, 76 / 25⟩ : Bounds ℚ).ymax) := by
  have hcomp : computeBounds ([⟨1, 2, ""⟩, ⟨3, 4, ""⟩] : List (CsvRow ℚ)) =
      some ⟨49 / 25, 101 / 25, 24 / 25, 76 / 25⟩ := by
    norm_num [computeBounds, minLon, maxLon, minLat, maxLat, List.foldl]
  exact ⟨hcomp, (c2_bounds _ _ hcomp).1⟩

/-! ### KMZ assembly: string counting machinery and claim C9 -/

theorem isPrefB_iff (p : List Char) : ∀ l : List Char, isPrefB p l = true ↔ l.take p.length = p := by
  induction p with
  | nil => intro l; simp [isPrefB]
  | cons a as ih =>
    intro l
    cases l with
    | nil => simp [isPrefB]
    | cons b bs =>
      simp only [isPrefB, Bool.and_eq_true, beq_iff_eq, List.length_cons, List.take_succ_cons,
        List.cons.injEq, ih bs]
      tauto

theorem isPrefB_length {p l : List Char} (h : isPrefB p l = true) : p.length ≤ l.length := by
  have := (isPrefB_iff p l).mp h
  have hlen := congrArg List.length this
  rw [List.length_take] at hlen
  omega

theorem isPrefB_refl (l : List Char) : isPrefB l l = true :=
  (isPrefB_iff l l).mpr (List.take_length l)

theorem isPrefB_append_ext {p l : List Char} (t : List Char) (h : isPrefB p l = true) :
    isPrefB p (l ++ t) = true := by
  rw [isPrefB_iff] at h ⊢
  rw [List.take_append_of_le_length (isPrefB_length ((isPrefB_iff p l).mpr h)), h]

theorem isPrefB_false_of_short {p l : List Char} (h : l.length < p.length) :
    isPrefB p l = false := by
  cases hb : isPrefB p l with
  | false => rfl
  | true => exact absurd (isPrefB_length hb) (by omega)

theorem isPrefB_head {q l : List Char} (hq : q ≠ []) (h : isPrefB q l = true) :
    l.head? = q.head? := by
  rw [isPrefB_iff] at h
  cases q with
  | nil => exact absurd rfl hq
  | cons d ds =>
    cases l with
    | nil => simp at h
    | cons e t =>
      rw [List.length_cons, List.take_succ_cons] at h
      injection h with h1 _
      rw [List.head?_cons, List.head?_cons, h1]

theorem isSufB_cons {q cs : List Char} (c : Char) (h : isSufB q cs = true) :
    isSufB q (c :: cs) = true := by
  unfold isSufB at h ⊢
  rw [List.reverse_cons]
  exact isPrefB_append_ext [c] h

theorem isSufB_getLast {q l : List Char} (hq : q ≠ []) (h : isSufB q l = true) :
    l.getLast? = q.getLast? := by
  unfold isSufB at h
  rw [List.getLast?_eq_head?_reverse, List.getLast?_eq_head?_reverse]
  exact isPrefB_head (by simpa using hq) h

theorem countOccur_append (p : List Char) :
    ∀ xs ys : List Char,
      (∀ i, i < p.length → 0 < i →
        ¬(isSufB (p.take i) xs = true ∧ isPrefB (p.drop i) ys = true)) →
      countOccur p (xs ++ ys) = countOccur p xs + countOccur p ys := by
  intro xs
  induction xs with
  | nil => intro ys _; simp [countOccur]
  | cons c cs ih =>
    intro ys hns
    have hns' : ∀ i, i < p.length → 0 < i →
        ¬(isSufB (p.take i) cs = true ∧ isPrefB (p.drop i) ys = true) := by
      intro i h1 h2 ⟨hs, hpre⟩
      exact hns i h1 h2 ⟨isSufB_cons c hs, hpre⟩
    have hmain : (if isPrefB p ((c :: cs) ++ ys) then 1 else 0) =
        (if isPrefB p (c :: cs) then (1 : ℕ) else 0) := by
      by_cases hlen : p.length ≤ (c :: cs).length
      · have hab : isPrefB p ((c :: cs) ++ ys) = isPrefB p (c :: cs) := by
          cases hb : isPrefB p (c :: cs) with
          | true => exact isPrefB_append_ext ys hb
          | false =>
            cases hb2 : isPrefB p ((c :: cs) ++ ys) with
            | false => rfl
            | true =>
              exfalso
              have h1 := (isPrefB_iff p _).mp hb2
              rw [List.take_append_of_le_length hlen] at h1
              rw [(isPrefB_iff p (c :: cs)).mpr h1] at hb
              simp at hb
        rw [hab]
      · push_neg at hlen
        have hL : isPrefB p (c :: cs) = false := isPrefB_false_of_short hlen
        have hR : isPrefB p ((c :: cs) ++ ys) = false := by
          cases hfull : isPrefB p ((c :: cs) ++ ys) with
          | false => rfl
          | true =>
            exfalso
            set i := (c :: cs).length with hi
            have hi1 : i < p.length := hlen
            have hi0 : 0 < i := by simp [hi]
            have htk := (isPrefB_iff p ((c :: cs) ++ ys)).mp hfull
            have hplen : p.length ≤ (c :: cs).length + ys.length := by
              have hlc := congrArg List.length htk
              rw [List.length_take, List.length_append] at hlc
              omega
            have htake : p.take i = c :: cs := by
              have h1 : (((c :: cs) ++ ys).take p.length).take i = ((c :: cs) ++ ys).take i := by
                rw [List.take_take]
                congr 1
                omega
              rw [htk] at h1
              rw [h1, hi, List.take_append_of_le_length (le_refl _), List.take_length]
            have hdropp : p.drop i = ys.take (p.length - i) := by
              have h2 : (((c :: cs) ++ ys).take p.length).drop i = p.drop i := by rw [htk]
              rw [List.drop_take, hi, List.drop_left] at h2
              exact h2.symm
            have hys : isPrefB (p.drop i) ys = true := by
              rw [isPrefB_iff, hdropp, List.length_take,
                min_eq_left (show p.length - i ≤ ys.length by omega)]
            have hxs : isSufB (p.take i) (c :: cs) = true := by
              rw [htake]
              exact isPrefB_refl ((c :: cs).reverse)
            exact hns i hi1 hi0 ⟨hxs, hys⟩
        rw [hL, hR]
    calc countOccur p ((c :: cs) ++ ys)
        = (if isPrefB p ((c :: cs) ++ ys) then 1 else 0) + countOccur p (cs ++ ys) := rfl
      _ = (if isPrefB p (c :: cs) then 1 else 0) + (countOccur p cs + countOccur p ys) := by
          rw [hmain, ih ys hns']
      _ = countOccur p (c :: cs) + countOccur p ys := by
          show _ = (if isPrefB p (c :: cs) then 1 else 0) + countOccur p cs + countOccur p ys
          omega

theorem noSpan_of_head (p xs ys : List Char) (c : Char) (hy : ys.head? = some c)
    (hne : ∀ i, i < p.length → 0 < i → (p.drop i).head? ≠ some c) :
    ∀ i, i < p.length → 0 < i →
      ¬(isSufB (p.take i) xs = true ∧ isPrefB (p.drop i) ys = true) := by
  intro i hi1 hi0 hand
  obtain ⟨_, hpre⟩ := hand
  apply hne i hi1 hi0
  have hdne : p.drop i ≠ [] := by
    intro hnil
    have := congrArg List.length hnil
    rw [List.length_drop, List.length_nil] at this
    omega
  rw [← isPrefB_head hdne hpre, hy]

theorem noSpan_of_last (p xs ys : List Char) (c : Char) (hx : xs.getLast? = some c)
    (hne : ∀ i, i < p.length → 0 < i → (p.take i).getLast? ≠ some c) :
    ∀ i, i < p.length → 0 < i →
      ¬(isSufB (p.take i) xs = true ∧ isPrefB (p.drop i) ys = true) := by
  intro i hi1 hi0 hand
  obtain ⟨hsuf, _⟩ := hand
  apply hne i hi1 hi0
  have htne : p.take i ≠ [] := by
    intro hnil
    have := congrArg List.length hnil
    rw [List.length_take, List.length_nil] at this
    omega
  rw [← isSufB_getLast htne hsuf, hx]

theorem countOccur_split_gt (t rest : List Char) (ht : t.getLast? = some '>') :
    countOccur openTag (t ++ rest) = countOccur openTag t + countOccur openTag rest :=
  countOccur_append openTag t rest (noSpan_of_last openTag t rest '>' ht (by decide))

theorem countOccur_split_lt (t rest : List Char) (hr : rest.head? = some '<') :
    countOccur openTag (t ++ rest) = countOccur openTag t + countOccur openTag rest :=
  countOccur_append openTag t rest (noSpan_of_head openTag t rest '<' hr (by decide))

theorem countOccur_split_nl (t rest : List Char) (hr : rest.head? = some '\n') :
    countOccur openTag (t ++ rest) = countOccur openTag t + countOccur openTag rest :=
  countOccur_append openTag t rest (noSpan_of_head openTag t rest '\n' hr (by decide))

theorem head_append_of_head {t : List Char} (z : List Char) {c : Char}
    (h : t.head? = some c) : (t ++ z).head? = some c := by
  cases t with
  | nil => simp at h
  | cons a as => simpa using h

theorem countOccur_zero_of_not_mem {p : List Char} {c : Char} (hp : p.head? = some c)
    {s : List Char} (h : c ∉ s) : countOccur p s = 0 := by
  induction s with
  | nil => rfl
  | cons d ds ih =>
    have hd : c ≠ d := fun hcd => h (hcd ▸ List.mem_cons_self d ds)
    have hds : c ∉ ds := fun hin => h (List.mem_cons_of_mem d hin)
    have hpref : isPrefB p (d :: ds) = false := by
      cases hb : isPrefB p (d :: ds) with
      | false => rfl
      | true =>
        exfalso
        have hpne : p ≠ [] := by
          intro hnil
          rw [hnil] at hp
          simp at hp
        have := isPrefB_head hpne hb
        rw [hp, List.head?_cons] at this
        exact hd (Option.some_injective _ this.symm)
    rw [countOccur, hpref, if_neg (by simp), ih hds]

theorem mem_sanitizeAux {c : Char} : ∀ (b : Bool) (s : List Char),
    c ∈ sanitizeAux b s → c ∈ s ∨ c = '_' := by
  intro b s
  induction s generalizing b with
  | nil => intro h; simp [sanitizeAux] at h
  | cons d ds ih =>
    intro h
    rw [sanitizeAux] at h
    by_cases hw : wsChar d = true
    · rw [if_pos hw] at h
      by_cases hb : b = true
      · rw [if_pos hb] at h
        rcases ih true h with h1 | h1
        · exact Or.inl (List.mem_cons_of_mem d h1)
        · exact Or.inr h1
      · rw [if_neg hb] at h
        rcases List.mem_cons.mp h with rfl | h1
        · exact Or.inr rfl
        · rcases ih true h1 with h2 | h2
          · exact Or.inl (List.mem_cons_of_mem d h2)
          · exact Or.inr h2
    · rw [if_neg hw] at h
      rcases List.mem_cons.mp h with rfl | h1
      · exact Or.inl (List.mem_cons_self c ds)
      · rcases ih false h1 with h2 | h2
        · exact Or.inl (List.mem_cons_of_mem d h2)
        · exact Or.inr h2

theorem lt_not_mem_filename {name : String} (h : '<' ∉ name.data) :
    '<' ∉ layerFilename name := by
  intro hc
  rcases List.mem_append.mp hc with hc | hc
  · rcases mem_sanitizeAux false name.data hc with h1 | h1
    · exact h h1
    · simp at h1
  · revert hc
    decide

theorem countOccur_block (numStr : ℚ → String) (l : KmzLayer)
    (hname : '<' ∉ l.name.data) (hnum : ∀ q : ℚ, '<' ∉ (numStr q).data) :
    countOccur openTag (overlayBlock numStr l) = 1 := by
  have htag : openTag.head? = some '<' := by decide
  have hzn : countOccur openTag l.name.data = 0 :=
    countOccur_zero_of_not_mem htag hname
  have hzf : countOccur openTag (layerFilename l.name) = 0 :=
    countOccur_zero_of_not_mem htag (lt_not_mem_filename hname)
  have hznum : ∀ q : ℚ, countOccur openTag (numStr q).data = 0 := fun q =>
    countOccur_zero_of_not_mem htag (hnum q)
  rw [overlayBlock]
  rw [countOccur_split_gt kmlT1.data _ (by decide)]
  rw [countOccur_split_lt l.name.data _ (head_append_of_head _ (by decide : kmlT2.data.head? = some '<'))]
  rw [countOccur_split_gt kmlT2.data _ (by decide)]
  rw [countOccur_split_lt (layerFilename l.name) _ (head_append_of_head _ (by decide : kmlT3.data.head? = some '<'))]
  rw [countOccur_split_gt kmlT3.data _ (by decide)]
  rw [countOccur_split_lt (numStr l.north).data _ (head_append_of_head _ (by decide : kmlT4.data.head? = some '<'))]
  rw [countOccur_split_gt kmlT4.data _ (by decide)]
  rw [countOccur_split_lt (numStr l.south).data _ (head_append_of_head _ (by decide : kmlT5.data.head? = some '<'))]
  rw [countOccur_split_gt kmlT5.data _ (by decide)]
  rw [countOccur_split_lt (numStr l.east).data _ (head_append_of_head _ (by decide : kmlT6.data.head? = some '<'))]
  rw [countOccur_split_gt kmlT6.data _ (by decide)]
  rw [countOccur_split_lt (numStr l.west).data _ (by decide : kmlT7.data.head? = some '<')]
  rw [hzn, hzf, hznum, hznum, hznum, hznum]
  have c1 : countOccur openTag kmlT1.data = 1 := by decide
  have c2 : countOccur openTag kmlT2.data = 0 := by decide
  have c3 : countOccur openTag kmlT3.data = 0 := by decide
  have c4 : countOccur openTag kmlT4.data = 0 := by decide
  have c5 : countOccur openTag kmlT5.data = 0 := by decide
  have c6 : countOccur openTag kmlT6.data = 0 := by decide
  have c7 : countOccur openTag kmlT7.data = 0 := by decide
  rw [c1, c2, c3, c4, c5, c6, c7]

theorem overlayBlock_head (numStr : ℚ → String) (l : KmzLayer) :
    (overlayBlock numStr l).head? = some '\n' := by
  rw [overlayBlock]
  exact head_append_of_head _ (by decide : kmlT1.data.head? = some '\n')

theorem kmlContent_eq (numStr : ℚ → String) (layers : List KmzLayer) :
    kmlContent numStr layers =
      kmlHeader.data ++ ((layers.map (overlayBlock numStr)).flatten ++ kmlFooter.data) := by
  rw [kmlContent]
  have hfold : ∀ (ls : List KmzLayer) (acc : List Char),
      ls.foldl (fun a l => a ++ overlayBlock numStr l) acc =
        acc ++ (ls.map (overlayBlock numStr)).flatten := by
    intro ls
    induction ls with
    | nil => intro acc; simp
    | cons a t ih =>
      intro acc
      rw [List.foldl_cons, ih, List.map_cons, List.flatten_cons, List.append_assoc]
  rw [hfold, List.append_assoc]

theorem blocks_footer_head (numStr : ℚ → String) (layers : List KmzLayer) :
    ((layers.map (overlayBlock numStr)).flatten ++ kmlFooter.data).head? = some '\n' := by
  cases layers with
  | nil =>
    simp only [List.map_nil, List.flatten_nil, List.nil_append]
    decide
  | cons a t =>
    rw [List.map_cons, List.flatten_cons, List.append_assoc]
    exact head_append_of_head _ (overlayBlock_head numStr a)

theorem count_blocks_footer (numStr : ℚ → String) (layers : List KmzLayer)
    (hname : ∀ l ∈ layers, '<' ∉ l.name.data)
    (hnum : ∀ q : ℚ, '<' ∉ (numStr q).data) :
    countOccur openTag ((layers.map (overlayBlock numStr)).flatten ++ kmlFooter.data) =
      layers.length := by
  induction layers with
  | nil =>
    simp only [List.map_nil, List.flatten_nil, List.nil_append, List.length_nil]
    decide
  | cons a t ih =>
    rw [List.map_cons, List.flatten_cons, List.append_assoc]
    rw [countOccur_split_nl (overlayBlock numStr a) _ (blocks_footer_head numStr t)]
    rw [countOccur_block numStr a (hname a (List.mem_cons_self a t)) hnum]
    rw [ih (fun l hl => hname l (List.mem_cons_of_mem a hl))]
    rw [List.length_cons]
    omega

/-- C9 (amended): the archive declares one image entry per layer, in layer
order, each named by the sanitized label (whitespace runs become a single
underscore) plus ".png", and the manifest document doc.kml is the LAST
declared entry, not the first; for layers whose labels contain no markup
character and a numeric formatter emitting no markup character, the
manifest contains exactly one GroundOverlay record per layer, and for each
layer its full overlay block (name, image reference, and
north/south/east/west box) appears verbatim inside the manifest. -/
theorem c9_kmz (numStr : ℚ → String) (layers : List KmzLayer)
    (hname : ∀ l ∈ layers, '<' ∉ l.name.data)
    (hnum : ∀ q : ℚ, '<' ∉ (numStr q).data) :
    (kmzEntries numStr layers).map Prod.fst =
      layers.map (fun l => String.mk (layerFilename l.name)) ++ ["doc.kml"] ∧
    (kmzEntries numStr layers).length = layers.length + 1 ∧
    countOccur openTag (kmlContent numStr layers) = layers.length ∧
    (∀ l ∈ layers, ∃ pre post,
      kmlContent numStr layers = pre ++ (overlayBlock numStr l ++ post)) := by
  refine ⟨?_, ?_, ?_, ?_⟩
  · rw [kmzEntries, List.map_append, List.map_map]
    rfl
  · rw [kmzEntries, List.length_append, List.length_map]
    rfl
  · rw [kmlContent_eq]
    rw [countOccur_split_nl kmlHeader.data _ (blocks_footer_head numStr layers)]
    rw [count_blocks_footer numStr layers hname hnum]
    have hh : countOccur openTag kmlHeader.data = 0 := by decide
    rw [hh, Nat.zero_add]
  · intro l hl
    obtain ⟨s, t, hst⟩ := List.append_of_mem hl
    refine ⟨kmlHeader.data ++ (s.map (overlayBlock numStr)).flatten,
      (t.map (overlayBlock numStr)).flatten ++ kmlFooter.data, ?_⟩
    rw [kmlContent_eq, hst]
    simp [List.append_assoc]

/-- Witness for C9 on a single layer named "Operator A". -/
theorem c9_kmz_witness :
    (∀ l ∈ ([⟨"Operator A", [7], 1, 2, 3, 4⟩] : List KmzLayer), '<' ∉ l.name.data) ∧
    (∀ q : ℚ, '<' ∉ ((fun _ : ℚ => ("0" : String)) q).data) ∧
    countOccur openTag
      (kmlContent (fun _ : ℚ => ("0" : String)) [⟨"Operator A", [7], 1, 2, 3, 4⟩]) = 1 := by
  have h1 : ∀ l ∈ ([⟨"Operator A", [7], 1, 2, 3, 4⟩] : List KmzLayer), '<' ∉ l.name.data := by
    intro l hl
    rcases List.mem_singleton.mp hl with rfl
    decide
  have h2 : ∀ q : ℚ, '<' ∉ ((fun _ : ℚ => ("0" : String)) q).data := by
    intro q
    show '<' ∉ ("0" : String).data
    decide
  exact ⟨h1, h2, (c9_kmz _ _ h1 h2).2.2.1⟩

/-- Counterexample to C9 as stated: with a single layer named "A" the first
declared archive entry is the image "A.png", not the manifest doc.kml; the
manifest is declared last. -/
theorem c9_order_counterexample :
    ((kmzEntries (fun _ : ℚ => ("0" : String)) [⟨"A", [], 0, 0, 0, 0⟩]).map Prod.fst).head? =
      some ("A.png") ∧ ("A.png" : String) ≠ "doc.kml" := by
  constructor
  · decide
  · decide

/-! ### Gaussian smoothing: kernel normalization and mass transport -/

theorem kernelSize_pos (σ : ℝ) : 0 < kernelSize σ := by
  unfold kernelSize
  omega

theorem kCenter_eq_ceil (σ : ℝ) : kCenter σ = ⌈σ * 3⌉₊ := by
  unfold kCenter kernelSize
  omega

theorem kernelSize_eq (σ : ℝ) : kernelSize σ = 2 * kCenter σ + 1 := by
  rw [kCenter_eq_ceil]
  unfold kernelSize
  omega

theorem kCenter_pos {σ : ℝ} (hσ : 0 < σ) : 1 ≤ kCenter σ := by
  rw [kCenter_eq_ceil]
  exact Nat.one_le_ceil_iff.mpr (by linarith)

theorem gaussSum_pos (σ : ℝ) : 0 < gaussSum σ := by
  unfold gaussSum
  apply Finset.sum_pos (fun i _ => Real.exp_pos _)
  exact ⟨0, Finset.mem_range.mpr (kernelSize_pos σ)⟩

theorem gaussKernel_pos (σ : ℝ) (i : ℕ) : 0 < gaussKernel σ i :=
  div_pos (Real.exp_pos _) (gaussSum_pos σ)

theorem gaussKernel_sum (σ : ℝ) :
    ∑ k ∈ Finset.range (kernelSize σ), gaussKernel σ k = 1 := by
  unfold gaussKernel
  rw [← Finset.sum_div]
  exact div_self (ne_of_gt (gaussSum_pos σ))

theorem clampIdx_lt {w : ℕ} (hw : 0 < w) (p : ℤ) : clampIdx p w < w := by
  unfold clampIdx
  split_ifs <;> omega

theorem clampIdx_of_bounds {w : ℕ} {p : ℤ} (h0 : 0 ≤ p) (hw : p < (w : ℤ)) :
    clampIdx p w = p.toNat := by
  unfold clampIdx
  rw [if_neg (by omega), if_neg (by omega)]

theorem shift_sum (d : ℕ → ℝ) (W : ℕ) (c : ℕ) (hc : 1 ≤ c) (s : ℤ) (hs : |s| ≤ (c : ℤ))
    (hsupp : ∀ j : ℕ, j < W → d j ≠ 0 → c ≤ j ∧ j + c < W) :
    ∑ x ∈ Finset.range W, d (clampIdx ((x : ℤ) + s) W) = ∑ x ∈ Finset.range W, d x := by
  obtain ⟨hs1, hs2⟩ := abs_le.mp hs
  rcases Nat.eq_zero_or_pos W with hW | hW
  · subst hW
    simp
  classical
  have hkey : ∀ p : ℤ, d (clampIdx p W) ≠ 0 → 0 ≤ p ∧ p < (W : ℤ) := by
    intro p hp
    unfold clampIdx at hp
    split_ifs at hp with h1 h2
    · exact absurd (hsupp 0 hW hp).1 (by omega)
    · have := hsupp (W - 1) (by omega) hp
      omega
    · omega
  have hL := @Finset.sum_filter_ne_zero ℕ ℝ
    (fun x => d (clampIdx ((x : ℤ) + s) W)) _ (Finset.range W) _
  have hR := @Finset.sum_filter_ne_zero ℕ ℝ (fun x => d x) _ (Finset.range W) _
  rw [← hL, ← hR]
  refine Finset.sum_nbij' (fun x => clampIdx ((x : ℤ) + s) W)
    (fun y => ((y : ℤ) - s).toNat) ?_ ?_ ?_ ?_ ?_
  · intro a ha
    rw [Finset.mem_filter] at ha ⊢
    exact ⟨Finset.mem_range.mpr (clampIdx_lt hW _), ha.2⟩
  · intro y hy
    rw [Finset.mem_filter] at hy ⊢
    obtain ⟨hyr, hyne⟩ := hy
    have hyW := Finset.mem_range.mp hyr
    obtain ⟨hyc, hycW⟩ := hsupp y hyW hyne
    constructor
    · exact Finset.mem_range.mpr (show (((y : ℤ) - s).toNat) < W by omega)
    · show d (clampIdx (((((y : ℤ) - s).toNat : ℕ) : ℤ) + s) W) ≠ 0
      have harg : ((((y : ℤ) - s).toNat : ℕ) : ℤ) + s = (y : ℤ) := by omega
      rw [harg, clampIdx_of_bounds (by omega) (by exact_mod_cast Nat.cast_lt.mpr hyW),
        Int.toNat_natCast]
      exact hyne
  · intro a ha
    rw [Finset.mem_filter] at ha
    obtain ⟨_, hane⟩ := ha
    obtain ⟨hp0, hpW⟩ := hkey _ hane
    show (((clampIdx ((a : ℤ) + s) W : ℕ) : ℤ) - s).toNat = a
    rw [clampIdx_of_bounds hp0 hpW]
    omega
  · intro y hy
    rw [Finset.mem_filter] at hy
    obtain ⟨hyr, hyne⟩ := hy
    have hyW := Finset.mem_range.mp hyr
    obtain ⟨hyc, hycW⟩ := hsupp y hyW hyne
    show clampIdx (((((y : ℤ) - s).toNat : ℕ) : ℤ) + s) W = y
    have harg : ((((y : ℤ) - s).toNat : ℕ) : ℤ) + s = (y : ℤ) := by omega
    rw [harg, clampIdx_of_bounds (by omega) (by exact_mod_cast Nat.cast_lt.mpr hyW),
      Int.toNat_natCast]
  · intro a _
    rfl

theorem flat_decode {W : ℕ} (y x : ℕ) (hx : x < W) :
    (y * W + x) / W = y ∧ (y * W + x) % W = x := by
  have hW : 0 < W := by omega
  constructor
  · calc (y * W + x) / W = (W * y + x) / W := by rw [Nat.mul_comm]
      _ = y + x / W := Nat.mul_add_div hW y x
      _ = y := by rw [Nat.div_eq_of_lt hx]; omega
  · rw [Nat.mul_comm, Nat.mul_add_mod, Nat.mod_eq_of_lt hx]

theorem convolveH_row_sum (data : ℕ → ℝ) (W H : ℕ) (σ : ℝ) (hσ : 0 < σ) (y : ℕ)
    (hsupp : ∀ x : ℕ, x < W → data (y * W + x) ≠ 0 →
      kCenter σ ≤ x ∧ x + kCenter σ < W) :
    ∑ x ∈ Finset.range W,
      convolveH data W H (gaussKernel σ) (kernelSize σ) (y * W + x) =
    ∑ x ∈ Finset.range W, data (y * W + x) := by
  have step1 : ∀ x ∈ Finset.range W,
      convolveH data W H (gaussKernel σ) (kernelSize σ) (y * W + x) =
      ∑ k ∈ Finset.range (kernelSize σ),
        data (y * W + clampIdx ((x : ℤ) + (k : ℤ) - (kCenter σ : ℤ)) W) *
          gaussKernel σ k := by
    intro x hx
    have hxW := Finset.mem_range.mp hx
    obtain ⟨hdiv, hmod⟩ := flat_decode y x hxW
    simp only [convolveH]
    rw [hdiv, hmod]
    rfl
  rw [Finset.sum_congr rfl step1, Finset.sum_comm]
  have step3 : ∀ k ∈ Finset.range (kernelSize σ),
      ∑ x ∈ Finset.range W,
        data (y * W + clampIdx ((x : ℤ) + (k : ℤ) - (kCenter σ : ℤ)) W) *
          gaussKernel σ k =
      (∑ x ∈ Finset.range W, data (y * W + x)) * gaussKernel σ k := by
    intro k hk
    have hkS := Finset.mem_range.mp hk
    rw [kernelSize_eq] at hkS
    rw [← Finset.sum_mul]
    congr 1
    have harg : ∀ x : ℕ, (x : ℤ) + (k : ℤ) - (kCenter σ : ℤ) =
        (x : ℤ) + ((k : ℤ) - (kCenter σ : ℤ)) := by
      intro x
      ring
    rw [Finset.sum_congr rfl (fun x _ => by rw [harg x])]
    exact shift_sum (fun j => data (y * W + j)) W (kCenter σ) (kCenter_pos hσ)
      ((k : ℤ) - (kCenter σ : ℤ)) (abs_le.mpr ⟨by omega, by omega⟩) hsupp
  rw [Finset.sum_congr rfl step3, ← Finset.mul_sum, gaussKernel_sum, mul_one]

theorem convolveV_col_sum (data : ℕ → ℝ) (W H : ℕ) (σ : ℝ) (hσ : 0 < σ) (x : ℕ)
    (hxW : x < W)
    (hsupp : ∀ y : ℕ, y < H → data (y * W + x) ≠ 0 →
      kCenter σ ≤ y ∧ y + kCenter σ < H) :
    ∑ y ∈ Finset.range H,
      convolveV data W H (gaussKernel σ) (kernelSize σ) (y * W + x) =
    ∑ y ∈ Finset.range H, data (y * W + x) := by
  have step1 : ∀ y ∈ Finset.range H,
      convolveV data W H (gaussKernel σ) (kernelSize σ) (y * W + x) =
      ∑ k ∈ Finset.range (kernelSize σ),
        data (clampIdx ((y : ℤ) + (k : ℤ) - (kCenter σ : ℤ)) H * W + x) *
          gaussKernel σ k := by
    intro y _
    obtain ⟨hdiv, hmod⟩ := flat_decode y x hxW
    simp only [convolveV]
    rw [hdiv, hmod]
    rfl
  rw [Finset.sum_congr rfl step1, Finset.sum_comm]
  have step3 : ∀ k ∈ Finset.range (kernelSize σ),
      ∑ y ∈ Finset.range H,
        data (clampIdx ((y : ℤ) + (k : ℤ) - (kCenter σ : ℤ)) H * W + x) *
          gaussKernel σ k =
      (∑ y ∈ Finset.range H, data (y * W + x)) * gaussKernel σ k := by
    intro k hk
    have hkS := Finset.mem_range.mp hk
    rw [kernelSize_eq] at hkS
    rw [← Finset.sum_mul]
    congr 1
    have harg : ∀ y : ℕ, (y : ℤ) + (k : ℤ) - (kCenter σ : ℤ) =
        (y : ℤ) + ((k : ℤ) - (kCenter σ : ℤ)) := by
      intro y
      ring
    rw [Finset.sum_congr rfl (fun y _ => by rw [harg y])]
    exact shift_sum (fun j => data (j * W + x)) H (kCenter σ) (kCenter_pos hσ)
      ((k : ℤ) - (kCenter σ : ℤ)) (abs_le.mpr ⟨by omega, by omega⟩) hsupp
  rw [Finset.sum_congr rfl step3, ← Finset.mul_sum, gaussKernel_sum, mul_one]

theorem convolveH_sum (data : ℕ → ℝ) (W H : ℕ) (σ : ℝ) (hσ : 0 < σ)
    (hsupp : ∀ y x : ℕ, y < H → x < W → data (y * W + x) ≠ 0 →
      kCenter σ ≤ x ∧ x + kCenter σ < W) :
    sumWH W H (convolveH data W H (gaussKernel σ) (kernelSize σ)) = sumWH W H data := by
  unfold sumWH
  exact Finset.sum_congr rfl (fun y hy => convolveH_row_sum data W H σ hσ y
    (fun x hxW => hsupp y x (Finset.mem_range.mp hy) hxW))

theorem convolveV_sum (data : ℕ → ℝ) (W H : ℕ) (σ : ℝ) (hσ : 0 < σ)
    (hsupp : ∀ y x : ℕ, y < H → x < W → data (y * W + x) ≠ 0 →
      kCenter σ ≤ y ∧ y + kCenter σ < H) :
    sumWH W H (convolveV data W H (gaussKernel σ) (kernelSize σ)) = sumWH W H data := by
  unfold sumWH
  rw [Finset.sum_comm]
  conv_rhs => rw [Finset.sum_comm]
  exact Finset.sum_congr rfl (fun x hx => convolveV_col_sum data W H σ hσ x
    (Finset.mem_range.mp hx)
    (fun y hyH => hsupp y x hyH (Finset.mem_range.mp hx)))

theorem smoothGrid_sum (σ : ℝ) (W H : ℕ) (data : ℕ → ℝ) (hσ : 0 < σ)
    (hsupp : ∀ y x : ℕ, y < H → x < W → data (y * W + x) ≠ 0 →
      (kCenter σ ≤ x ∧ x + kCenter σ < W) ∧ (kCenter σ ≤ y ∧ y + kCenter σ < H)) :
    sumWH W H (smoothGrid σ W H data) = sumWH W H data := by
  unfold smoothGrid
  have hH := convolveH_sum data W H σ hσ (fun y x hy hx hne => (hsupp y x hy hx hne).1)
  have hrowzero : ∀ y x : ℕ, y < H → x < W → ¬(kCenter σ ≤ y ∧ y + kCenter σ < H) →
      convolveH data W H (gaussKernel σ) (kernelSize σ) (y * W + x) = 0 := by
    intro y x hy hx hyband
    have hW : 0 < W := by omega
    obtain ⟨hdiv, hmod⟩ := flat_decode y x hx
    simp only [convolveH]
    rw [hdiv, hmod]
    apply Finset.sum_eq_zero
    intro k _
    have hcl : clampIdx ((x : ℤ) + (k : ℤ) - ((kernelSize σ / 2 : ℕ) : ℤ)) W < W :=
      clampIdx_lt hW _
    have hdz : data (y * W + clampIdx ((x : ℤ) + (k : ℤ) -
        ((kernelSize σ / 2 : ℕ) : ℤ)) W) = 0 := by
      by_contra hne
      exact hyband ((hsupp y _ hy hcl hne).2)
    rw [hdz, zero_mul]
  have hVsupp : ∀ y x : ℕ, y < H → x < W →
      convolveH data W H (gaussKernel σ) (kernelSize σ) (y * W + x) ≠ 0 →
      kCenter σ ≤ y ∧ y + kCenter σ < H := by
    intro y x hy hx hne
    by_contra hc
    exact hne (hrowzero y x hy hx hc)
  rw [convolveV_sum _ W H σ hσ hVsupp, hH]

/-- C3 (amended): the Gaussian kernel is normalized to sum to 1, and the
horizontal pass followed by the vertical pass preserves the total sum of
cell values EXACTLY (over the reals) whenever every nonzero cell lies at
least kCenter cells away from all four borders; near the borders the clamp
can change the total by far more than floating-point tolerance. -/
theorem c3_mass (σ : ℝ) (W H : ℕ) (data : ℕ → ℝ) (hσ : 0 < σ)
    (hsupp : ∀ y x : ℕ, y < H → x < W → data (y * W + x) ≠ 0 →
      (kCenter σ ≤ x ∧ x + kCenter σ < W) ∧ (kCenter σ ≤ y ∧ y + kCenter σ < H)) :
    (∑ k ∈ Finset.range (kernelSize σ), gaussKernel σ k = 1) ∧
    sumWH W H (smoothGrid σ W H data) = sumWH W H data :=
  ⟨gaussKernel_sum σ, smoothGrid_sum σ W H data hσ hsupp⟩

theorem kCenter_one : kCenter 1 = 3 := by
  rw [kCenter_eq_ceil]
  norm_num

/-- Witness for C3 on a 7 by 7 grid with sigma = 1 (kernel half-width 3) and
all mass on the single central cell. -/
theorem c3_mass_witness :
    (0 : ℝ) < 1 ∧
    sumWH 7 7 (smoothGrid 1 7 7 (fun i => if i = 24 then (1 : ℝ) else 0)) =
      sumWH 7 7 (fun i => if i = 24 then (1 : ℝ) else 0) := by
  refine ⟨by norm_num, (c3_mass 1 7 7 _ (by norm_num) ?_).2⟩
  intro y x hy hx hne
  have h24 : y * 7 + x = 24 := by
    by_contra hc
    simp [hc] at hne
  rw [kCenter_one]
  omega

theorem sqrtHalf_pos : 0 < Real.sqrt (1 / 2) := Real.sqrt_pos.mpr (by norm_num)

theorem sqrtHalf_mul : 2 * Real.sqrt (1 / 2) * Real.sqrt (1 / 2) = 1 := by
  rw [mul_assoc, Real.mul_self_sqrt (by norm_num : (0 : ℝ) ≤ 1 / 2)]
  norm_num

theorem ceil_sqrtHalf : ⌈Real.sqrt (1 / 2) * 3⌉₊ = 3 := by
  rw [Nat.ceil_eq_iff (by norm_num)]
  constructor
  · have h1 : (2 : ℝ) / 3 < Real.sqrt (1 / 2) := by
      rw [show (2 : ℝ) / 3 = Real.sqrt ((2 / 3) ^ 2) from (Real.sqrt_sq (by norm_num)).symm]
      apply Real.sqrt_lt_sqrt (by positivity)
      norm_num
    push_cast
    nlinarith [h1]
  · have h2 : Real.sqrt (1 / 2) ≤ 1 := by
      rw [show (1 : ℝ) = Real.sqrt 1 from Real.sqrt_one.symm]
      exact Real.sqrt_le_sqrt (by norm_num)
    push_cast
    nlinarith [h2]

theorem kernelSize_sqrtHalf : kernelSize (Real.sqrt (1 / 2)) = 7 := by
  unfold kernelSize
  rw [ceil_sqrtHalf]

theorem kCenter_sqrtHalf : kCenter (Real.sqrt (1 / 2)) = 3 := by
  rw [kCenter_eq_ceil, ceil_sqrtHalf]

theorem gaussRaw_sqrtHalf (i : ℕ) :
    gaussRaw (Real.sqrt (1 / 2)) i =
      Real.exp (-(((i : ℝ) - 3) * ((i : ℝ) - 3))) := by
  unfold gaussRaw
  rw [kCenter_sqrtHalf, sqrtHalf_mul, div_one]
  norm_num

theorem gaussSum_sqrtHalf :
    gaussSum (Real.sqrt (1 / 2)) =
      1 + 2 * Real.exp (-1) + 2 * Real.exp (-4) + 2 * Real.exp (-9) := by
  unfold gaussSum
  rw [kernelSize_sqrtHalf]
  rw [Finset.sum_range_succ, Finset.sum_range_succ, Finset.sum_range_succ,
    Finset.sum_range_succ, Finset.sum_range_succ, Finset.sum_range_succ,
    Finset.sum_range_succ, Finset.sum_range_zero]
  rw [gaussRaw_sqrtHalf 0, gaussRaw_sqrtHalf 1, gaussRaw_sqrtHalf 2, gaussRaw_sqrtHalf 3,
    gaussRaw_sqrtHalf 4, gaussRaw_sqrtHalf 5, gaussRaw_sqrtHalf 6]
  norm_num [Real.exp_zero]
  ring

theorem gaussKernel_sqrtHalf (i : ℕ) :
    gaussKernel (Real.sqrt (1 / 2)) i =
      Real.exp (-(((i : ℝ) - 3) * ((i : ℝ) - 3))) /
        (1 + 2 * Real.exp (-1) + 2 * Real.exp (-4) + 2 * Real.exp (-9)) := by
  unfold gaussKernel
  rw [gaussRaw_sqrtHalf, gaussSum_sqrtHalf]

/-- Counterexample to C3 as stated: on a 5 wide, 1 tall grid of nonnegative
values with total mass 1 placed one cell away from the left border, sigma =
sqrt(1/2) (kernel length 7, normalized, half-width 3), the clamped
horizontal plus vertical passes lose more than one percent of the total
mass — far outside floating-point tolerance. -/
theorem c3_mass_counterexample :
    sumWH 5 1 (fun i => if i = 1 then (1 : ℝ) else 0) = 1 ∧
    sumWH 5 1 (fun i => if i = 1 then (1 : ℝ) else 0) -
      sumWH 5 1 (smoothGrid (Real.sqrt (1 / 2)) 5 1
        (fun i => if i = 1 then (1 : ℝ) else 0)) > 1 / 100 := by
  have hin : sumWH 5 1 (fun i => if i = 1 then (1 : ℝ) else 0) = 1 := by
    unfold sumWH
    rw [Finset.sum_range_one]
    norm_num [Finset.sum_range_succ]
  refine ⟨hin, ?_⟩
  rw [hin]
  set σ := Real.sqrt (1 / 2) with hσdef
  set d : ℕ → ℝ := fun i => if i = 1 then (1 : ℝ) else 0 with hd
  have hks : ∑ k ∈ Finset.range 7, gaussKernel σ k = 1 := by
    rw [← kernelSize_sqrtHalf]
    exact gaussKernel_sum σ
  have hsm : ∀ x : ℕ, x < 5 →
      smoothGrid σ 5 1 d x = convolveH d 5 1 (gaussKernel σ) 7 x := by
    intro x hx
    unfold smoothGrid
    rw [kernelSize_sqrtHalf]
    simp only [convolveV]
    have hdiv : x / 5 = 0 := Nat.div_eq_of_lt hx
    have hmod : x % 5 = x := Nat.mod_eq_of_lt hx
    rw [hdiv, hmod]
    have hcl : ∀ k : ℕ,
        clampIdx (((0 : ℕ) : ℤ) + (k : ℤ) - ((7 / 2 : ℕ) : ℤ)) 1 = 0 := by
      intro k
      unfold clampIdx
      split_ifs <;> omega
    calc ∑ k ∈ Finset.range 7,
          convolveH d 5 1 (gaussKernel σ) 7
            (clampIdx (((0 : ℕ) : ℤ) + (k : ℤ) - ((7 / 2 : ℕ) : ℤ)) 1 * 5 + x) *
            gaussKernel σ k
        = ∑ k ∈ Finset.range 7,
            convolveH d 5 1 (gaussKernel σ) 7 x * gaussKernel σ k :=
          Finset.sum_congr rfl (fun k _ => by rw [hcl k]; norm_num)
      _ = convolveH d 5 1 (gaussKernel σ) 7 x *
            ∑ k ∈ Finset.range 7, gaussKernel σ k := by rw [Finset.mul_sum]
      _ = convolveH d 5 1 (gaussKernel σ) 7 x := by rw [hks, mul_one]
  have hout : sumWH 5 1 (smoothGrid σ 5 1 d) =
      ∑ x ∈ Finset.range 5, convolveH d 5 1 (gaussKernel σ) 7 x := by
    unfold sumWH
    rw [Finset.sum_range_one]
    apply Finset.sum_congr rfl
    intro x hx
    rw [show 0 * 5 + x = x by omega]
    exact hsm x (Finset.mem_range.mp hx)
  have hsum : ∑ x ∈ Finset.range 5, convolveH d 5 1 (gaussKernel σ) 7 x =
      gaussKernel σ 4 + gaussKernel σ 3 + gaussKernel σ 2 +
        gaussKernel σ 1 + gaussKernel σ 0 := by
    rw [Finset.sum_range_succ, Finset.sum_range_succ, Finset.sum_range_succ,
      Finset.sum_range_succ, Finset.sum_range_one]
    simp only [convolveH]
    norm_num [Finset.sum_range_succ, clampIdx, hd]
    simp only [show Int.toNat 2 = 2 from rfl, show Int.toNat 3 = 3 from rfl,
      show Int.toNat 4 = 4 from rfl]
    norm_num
  rw [hout, hsum]
  rw [gaussKernel_sqrtHalf 4, gaussKernel_sqrtHalf 3, gaussKernel_sqrtHalf 2,
    gaussKernel_sqrtHalf 1, gaussKernel_sqrtHalf 0]
  norm_num [Real.exp_zero]
  have hS : (0 : ℝ) < 1 + 2 * Real.exp (-1) + 2 * Real.exp (-4) + 2 * Real.exp (-9) := by
    positivity
  have hx1 : (2.7182818283 : ℝ) < Real.exp 1 := Real.exp_one_gt_d9
  have hx2 : Real.exp 1 < 2.7182818286 := Real.exp_one_lt_d9
  have hexp_pos := Real.exp_pos 1
  have hb1 : Real.exp (-1) < (2.7182818283 : ℝ)⁻¹ := by
    rw [Real.exp_neg]
    exact inv_strictAnti₀ (by norm_num) hx1
  have hb4 : ((2.7182818286 : ℝ) ^ 4)⁻¹ < Real.exp (-4) := by
    have h4 : Real.exp (-4) = (Real.exp 1 ^ 4)⁻¹ := by
      rw [Real.exp_neg]
      congr 1
      rw [show (4 : ℝ) = ((4 : ℕ) : ℝ) * 1 by norm_num, Real.exp_nat_mul]
    rw [h4]
    exact inv_strictAnti₀ (by positivity) (pow_lt_pow_left₀ hx2 (le_of_lt hexp_pos) (by norm_num))
  have hb9 : (0 : ℝ) < Real.exp (-9) := Real.exp_pos _
  have hnum : (1 : ℝ) + 2 * (2.7182818283 : ℝ)⁻¹ < 98 * ((2.7182818286 : ℝ) ^ 4)⁻¹ := by
    norm_num
  have hE1pos : (0 : ℝ) < Real.exp (-1) := Real.exp_pos _
  have hE4pos : (0 : ℝ) < Real.exp (-4) := Real.exp_pos _
  have hgap : (1 : ℝ) -
      (Real.exp (-1) / (1 + 2 * Real.exp (-1) + 2 * Real.exp (-4) + 2 * Real.exp (-9)) +
       (1 + 2 * Real.exp (-1) + 2 * Real.exp (-4) + 2 * Real.exp (-9))⁻¹ +
       Real.exp (-1) / (1 + 2 * Real.exp (-1) + 2 * Real.exp (-4) + 2 * Real.exp (-9)) +
       Real.exp (-4) / (1 + 2 * Real.exp (-1) + 2 * Real.exp (-4) + 2 * Real.exp (-9)) +
       Real.exp (-9) / (1 + 2 * Real.exp (-1) + 2 * Real.exp (-4) + 2 * Real.exp (-9))) =
      (Real.exp (-4) + Real.exp (-9)) /
        (1 + 2 * Real.exp (-1) + 2 * Real.exp (-4) + 2 * Real.exp (-9)) := by
    field_simp
    ring
  rw [hgap, lt_div_iff₀ hS]
  linarith [hb1, hb4, hb9, hnum, hE1pos, hE4pos]

/-! ### Nonnegativity through the pipeline (claim C10) -/

theorem foldl_bump_nonneg (b : Bounds α) (R : ℕ) :
    ∀ (l : List (CsvRow α)) (g : ℕ → α), (∀ i, 0 ≤ g i) →
      ∀ i, 0 ≤ l.foldl (bumpCell b R) g i := by
  intro l
  induction l with
  | nil => intro g hg i; exact hg i
  | cons p t ih =>
    intro g hg i
    apply ih
    intro j
    unfold bumpCell
    split
    · show 0 ≤ if j = cellIndex b R p then g j + 1 else g j
      by_cases hj : j = cellIndex b R p
      · rw [if_pos hj]
        exact add_nonneg (hg j) zero_le_one
      · rw [if_neg hj]
        exact hg j
    · exact hg j

theorem accGrid_nonneg (b : Bounds α) (R : ℕ) (pts : List (CsvRow α)) :
    ∀ i, 0 ≤ accGrid b R pts i :=
  foldl_bump_nonneg b R pts (fun _ => 0) (fun _ => le_refl 0)

theorem convolveH_nonneg (data : ℕ → ℝ) (W H : ℕ) (kernel : ℕ → ℝ) (kSize : ℕ)
    (hd : ∀ i, 0 ≤ data i) (hk : ∀ k, 0 ≤ kernel k) :
    ∀ i, 0 ≤ convolveH data W H kernel kSize i := by
  intro i
  apply Finset.sum_nonneg
  intro k _
  exact mul_nonneg (hd _) (hk _)

theorem convolveV_nonneg (data : ℕ → ℝ) (W H : ℕ) (kernel : ℕ → ℝ) (kSize : ℕ)
    (hd : ∀ i, 0 ≤ data i) (hk : ∀ k, 0 ≤ kernel k) :
    ∀ i, 0 ≤ convolveV data W H kernel kSize i := by
  intro i
  apply Finset.sum_nonneg
  intro k _
  exact mul_nonneg (hd _) (hk _)

theorem heatValid_pos (b : Bounds ℝ) (R : ℕ) (pts : List (CsvRow ℝ)) (σ : ℝ) :
    ∀ x ∈ heatValid b R pts σ, 0 < x := by
  intro x hx
  have := (List.mem_filter.mp hx).2
  exact of_decide_eq_true this

/-- C10: starting from the all-zero grid every pipeline stage preserves
nonnegativity: histogram accumulation only adds 1.0, every Gaussian kernel
weight is strictly positive, both convolution passes output sums of
products of nonnegative terms, and therefore every smoothed cell, the
saturation reference maxDensity, and the cutoff are all nonnegative. -/
theorem c10_nonneg (b : Bounds ℝ) (R : ℕ) (pts : List (CsvRow ℝ)) (σ ratio : ℝ)
    (hσ : 0 < σ) (hr : 0 ≤ ratio) :
    (∀ k, 0 < gaussKernel σ k) ∧
    (∀ i, 0 ≤ accGrid b R pts i) ∧
    (∀ i, 0 ≤ convolveH (accGrid b R pts) R R (gaussKernel σ) (kernelSize σ) i) ∧
    (∀ i, 0 ≤ heatGrid b R pts σ i) ∧
    0 ≤ heatMaxH b R pts σ ∧
    0 ≤ heatCutoff b R pts σ ratio := by
  have hk : ∀ k, 0 < gaussKernel σ k := gaussKernel_pos σ
  have hacc := accGrid_nonneg b R pts
  have hH := convolveH_nonneg (accGrid b R pts) R R (gaussKernel σ) (kernelSize σ)
    hacc (fun k => (hk k).le)
  have hheat : ∀ i, 0 ≤ heatGrid b R pts σ i := by
    unfold heatGrid smoothGrid
    exact convolveV_nonneg _ R R (gaussKernel σ) (kernelSize σ) hH (fun k => (hk k).le)
  have hmaxh : 0 ≤ heatMaxH b R pts σ :=
    maxDensityOf_nonneg leR (heatValid b R pts σ) (heatValid_pos b R pts σ)
  exact ⟨hk, hacc, hH, hheat, hmaxh, mul_nonneg hmaxh hr⟩

/-- Witness for C10 with the empty point list, sigma 1 and ratio 0 on a
1 by 1 grid. -/
theorem c10_nonneg_witness :
    ((0 : ℝ) < 1 ∧ (0 : ℝ) ≤ 0) ∧
    (0 ≤ heatMaxH (⟨0, 1, 0, 1⟩ : Bounds ℝ) 1 [] 1 ∧
      0 ≤ heatCutoff (⟨0, 1, 0, 1⟩ : Bounds ℝ) 1 [] 1 0) :=
  ⟨⟨by norm_num, le_refl 0⟩,
   (c10_nonneg (⟨0, 1, 0, 1⟩ : Bounds ℝ) 1 [] 1 0 (by norm_num) (le_refl 0)).2.2.2.2⟩

end Geoheat
